import Mathlib

/-!
Shallow embedding of `src/turkey.py`, the turkey/customer assignment program.

Modelling conventions:
* Python floats are modelled as rationals (`ℚ`); every arithmetic operation the
  program performs (addition, multiplication, division by 2, negation, `min`)
  is exact on the inputs considered, so no rounding model is needed.
* Python objects are hashed and compared by identity; entities therefore carry
  an `oid : ℕ` field modelling object identity, so two turkeys of equal weight
  can still be distinct set elements, exactly as in the source.
* A Python dict `{Turkey: Customer}` built by `dict(zip(ts, customers))` is
  modelled as the association list `ts.zip customers`; for identity-distinct
  keys (the only case that arises from constructed objects) this is faithful.
* Fallible code returns `Option`: `cellCost` is `none` exactly where the
  source would raise `AttributeError` (`turkey` and `customer` both `None`),
  and `calc_profit?` / `brute_pairing?` are `none` exactly where the
  `assert sell_profit >= 0` of `calc_profit` raises `AssertionError`.
  `calc_profit` itself denotes the value the source returns when that
  assertion passes; it is the quantity the solvers maximize.
-/

/-- Constant `PRICE_PER_KILO = 1.0`: price per kilogram of turkey. -/
def PRICE_PER_KILO : ℚ := 1

/-- Constant `LEFTOVER_VALUE = 0.5`: value of a turkey that could not be sold. -/
def LEFTOVER_VALUE : ℚ := 1/2

/-- Function `calc_price(weight)`: the price of a turkey at a given weight. -/
def calc_price (weight : ℚ) : ℚ := weight * PRICE_PER_KILO

/-- Class `Turkey`: a turkey with a weight.  `oid` models Python object
identity (see module docstring); `Turkey.__init__` stores the weight with no
validation. -/
structure Turkey where
  oid : ℕ
  weight : ℚ
deriving DecidableEq

/-- Method `Turkey.price(self)`. -/
def Turkey.price (t : Turkey) : ℚ := calc_price t.weight

/-- Method `Turkey.leftover_value(self)`. -/
def Turkey.leftover_value (t : Turkey) : ℚ := t.price * LEFTOVER_VALUE

/-- Class `Customer`: a customer with a name, target weight and notes.
`Customer.__init__` stores the fields with no validation. -/
structure Customer where
  oid : ℕ
  name : String
  target_weight : ℚ
  notes : Option String
deriving DecidableEq

/-- Method `Customer.ideal_price(self)`. -/
def Customer.ideal_price (c : Customer) : ℚ := calc_price c.target_weight

/-- Method `Customer.agreed_price(self, turkey)`. -/
def Customer.agreed_price (c : Customer) (t : Turkey) : ℚ :=
  if c.target_weight > t.weight then t.price
  else (c.ideal_price + t.price) / 2

/-- The `sell_profit` sum of `calc_profit`, whose non-negativity the source
asserts (`assert sell_profit >= 0`). -/
def sell_profit (pairing : List (Turkey × Customer)) : ℚ :=
  (pairing.map (fun p => p.2.agreed_price p.1)).sum

/-- Line `leftovers = set(turkeys) - set(pairing.keys())` of `calc_profit`;
`dedup` models the set of list elements. -/
def leftover_turkeys (turkeys : List Turkey)
    (pairing : List (Turkey × Customer)) : List Turkey :=
  turkeys.dedup.filter (fun t => decide (t ∉ pairing.map Prod.fst))

/-- Function `calc_profit(turkeys, customers, pairing)`: the value the source
returns when its `assert sell_profit >= 0` passes — the sum of agreed prices
of sold turkeys plus the leftover value of unsold ones.  The faithful model
of the whole function, including the assertion's error path, is
`calc_profit?` below.  The `customers` argument is unused by the
computation, as in the source. -/
def calc_profit (turkeys : List Turkey) (customers : List Customer)
    (pairing : List (Turkey × Customer)) : ℚ :=
  sell_profit pairing
    + ((leftover_turkeys turkeys pairing).map Turkey.leftover_value).sum

/-- Function `calc_profit` modelled faithfully with its assertions.  The
first assertion, `assert set(leftovers) <= set(turkeys)`, always holds (see
`leftover_turkeys_subset`); the second, `assert sell_profit >= 0`, raises
`AssertionError` when the agreed-price sum is negative — the `none` case
here. -/
def calc_profit? (turkeys : List Turkey) (customers : List Customer)
    (pairing : List (Turkey × Customer)) : Option ℚ :=
  if 0 ≤ sell_profit pairing then some (calc_profit turkeys customers pairing)
  else none

/-- Each way of picking one element from a list, paired with the remaining
elements in order (helper for `kperms`). -/
def picks {α : Type} : List α → List (α × List α)
  | [] => []
  | a :: as => (a, as) :: (picks as).map (fun p => (p.1, a :: p.2))

/-- Enumeration `itertools.permutations(l, k)`: all length-`k` ordered selections of
distinct positions of `l`, in the enumeration order of `itertools`
(lexicographic in the positions picked). -/
def kperms {α : Type} : List α → ℕ → List (List α)
  | _, 0 => [[]]
  | l, k+1 => (picks l).flatMap (fun p => (kperms p.2 k).map (fun q => p.1 :: q))

/-- Python `max(l, key=f)` for `l = best :: rest`: the first element of the
list attaining the maximal key (a later element replaces the current best
only when its key is strictly greater). -/
def maxByFirst {α : Type} (f : α → ℚ) : α → List α → α
  | best, [] => best
  | best, a :: rest => maxByFirst f (if f a > f best then a else best) rest

/-- Python `max(l, key=f)`, with a default for the empty list (on which the
Python builtin would raise `ValueError`; the default is never used at the
call sites below). -/
def maxByFirstD {α : Type} (f : α → ℚ) (d : α) : List α → α
  | [] => d
  | a :: rest => maxByFirst f a rest

/-- Python `min(l, key=f)` for `l = best :: rest`: the first element of the
list attaining the minimal key. -/
def minByFirst {α : Type} (f : α → ℚ) : α → List α → α
  | best, [] => best
  | best, a :: rest => minByFirst f (if f a < f best then a else best) rest

/-- Python `min(l, key=f)` with a default for the empty list. -/
def minByFirstD {α : Type} (f : α → ℚ) (d : α) : List α → α
  | [] => d
  | a :: rest => minByFirst f a rest

/-- The candidate pairings enumerated by `brute_pairing`:
`dict(zip(ts, customers)) for ts in permutations(turkeys, min(...))`. -/
def brute_candidates (turkeys : List Turkey) (customers : List Customer) :
    List (List (Turkey × Customer)) :=
  (kperms turkeys (min customers.length turkeys.length)).map
    (fun ts => ts.zip customers)

/-- Function `brute_pairing(turkeys, customers)`: enumerate
`permutations(turkeys, min(len(customers), len(turkeys)))`, zip each with the
customers, and return the candidate maximizing `calc_profit` (first such in
enumeration order).  The candidate list is never empty, since the selection
length is at most `turkeys.length`, so the default is never used. -/
def brute_pairing (turkeys : List Turkey) (customers : List Customer) :
    List (Turkey × Customer) :=
  maxByFirstD (fun pairing => calc_profit turkeys customers pairing) []
    (brute_candidates turkeys customers)

/-- Function `brute_pairing` modelled faithfully with the assertion of
`calc_profit`: Python `max` evaluates the profit of every candidate, so the
call raises `AssertionError` — `none` here — exactly when some candidate's
profit evaluation trips the assertion; otherwise it returns the value of
`brute_pairing`. -/
def brute_pairing? (turkeys : List Turkey) (customers : List Customer) :
    Option (List (Turkey × Customer)) :=
  if (brute_candidates turkeys customers).all
      (fun pr => (calc_profit? turkeys customers pr).isSome)
  then some (brute_pairing turkeys customers)
  else none

/-- The cost assigned to cell `(c, t)` of the matrix in `hungarian_pairing`
(`matrix[c, t] = cost`), `none` where the source would raise (both indices
out of range, so that `turkey` and `customer` are both `None` and
`turkey.leftover_value()` raises `AttributeError`). -/
def cellCost (turkeys : List Turkey) (customers : List Customer)
    (c t : ℕ) : Option ℚ :=
  match customers[c]?, turkeys[t]? with
  | none, none => none
  | none, some turkey => some (-turkey.leftover_value)
  | some _, none => some 0
  | some customer, some turkey => some (-(customer.agreed_price turkey))

/-- The matrix entry at `(c, t)` as a rational; within the `size × size`
bounds `cellCost` is always `some` (see the safety theorem below), so the
`getD` default never surfaces there. -/
def matEntry (turkeys : List Turkey) (customers : List Customer)
    (c t : ℕ) : ℚ :=
  (cellCost turkeys customers c t).getD 0

/-- Total cost of a row solution `rowsol` (`rowsol.getD c 0` is the column
assigned to row `c`) for an `n × n` cost matrix `mat`. -/
def lapCost (n : ℕ) (mat : ℕ → ℕ → ℚ) (rowsol : List ℕ) : ℚ :=
  ((List.range n).map (fun c => mat c (rowsol.getD c 0))).sum

/-- Modelled from the spec: `hungarian.lap(matrix)`, the minimum-cost
perfect-matching routine of the external `hungarian` library, whose code is
not part of this repository.  Per the spec it must find a global optimum of
the `n × n` assignment problem (no heuristic approximation) and return the
row-to-column and column-to-row solutions.  It is modelled as exhaustive
minimization: the first row solution (over all permutations of the columns)
attaining the minimal total cost, together with its inverse. -/
def lap (n : ℕ) (mat : ℕ → ℕ → ℚ) : List ℕ × List ℕ :=
  let rowsol := minByFirstD (lapCost n mat) [] (kperms (List.range n) n)
  (rowsol, (List.range n).map (fun t => rowsol.indexOf t))

/-- Function `hungarian_pairing(turkeys, customers)`: build the `size × size` cost
matrix, run `lap`, and translate the column solution back to the pair of
assignment dicts `(assign_t_to_c, assign_c_to_t)`; an out-of-range index on
either side becomes `none`.  The loop `for t, c in enumerate(c_to_t)` is
modelled as a traversal of `List.range size` with `c = c_to_t.getD t 0`. -/
def hungarian_pairing (turkeys : List Turkey) (customers : List Customer) :
    List (Turkey × Option Customer) × List (Customer × Option Turkey) :=
  let size := max turkeys.length customers.length
  let c_to_t := (lap size (matEntry turkeys customers)).2
  let assign_t_to_c := (List.range size).filterMap
    (fun t => (turkeys[t]?).map
      (fun turkey => (turkey, customers[c_to_t.getD t 0]?)))
  let assign_c_to_t := (List.range size).filterMap
    (fun t => (customers[c_to_t.getD t 0]?).map
      (fun customer => (customer, turkeys[t]?)))
  (assign_t_to_c, assign_c_to_t)

/-- The matched pairs of the turkey-to-customer assignment returned by
`hungarian_pairing`: the entries whose customer side is not `None`.  This is
the pairing in the sense accepted by `calc_profit`. -/
def matchedPairs (assign : List (Turkey × Option Customer)) :
    List (Turkey × Customer) :=
  assign.filterMap (fun p => p.2.map (fun c => (p.1, c)))

/-- Modelled from the spec: the min-of-willingness negotiation policy,
`agreed_price = min(requester.max_price, item.price)` with
`max_price = target_weight * unit_price`.  This policy does not occur in
`src/turkey.py`; it is written down here only to compare it with the
program's actual `Customer.agreed_price`. -/
def min_willingness_price (c : Customer) (t : Turkey) : ℚ :=
  min (calc_price c.target_weight) t.price

/-- Modelled from the spec: the midpoint negotiation policy, `item.price`
when `requester.target_weight > item.weight`, otherwise the mean of the
requester's ideal price and the item's price. -/
def midpoint_price (c : Customer) (t : Turkey) : ℚ :=
  if c.target_weight > t.weight then t.price
  else (c.ideal_price + t.price) / 2

/-- Proof-layer default turkey, used only as the `getD` default in index
manipulations below; it never influences any value. -/
def dTurkey : Turkey := ⟨0, 0⟩

/-- Proof-layer default customer, used only as the `getD` default in index
manipulations below; it never influences any value. -/
def dCustomer : Customer := ⟨0, "", 0, none⟩

/-- Proof layer: the candidate pairing induced by a row solution `q` of the
cost matrix — customer `c` (for `c < customers.length`) receives turkey
`q.getD c 0`.  Used to relate the Hungarian solver's output to the
candidates of `brute_pairing`. -/
def candOf (turkeys : List Turkey) (customers : List Customer)
    (q : List ℕ) : List (Turkey × Customer) :=
  (List.range customers.length).map
    (fun c => (turkeys.getD (q.getD c 0) dTurkey, customers.getD c dCustomer))

/-- Proof layer: the turkey-to-customer assignment list extracted from an
arbitrary row solution `q`; `hungarian_pairing` produces exactly this for
the row solution found by `lap` (see `hungarian_pairing_fst_eq`). -/
def extract_t_to_c (turkeys : List Turkey) (customers : List Customer)
    (q : List ℕ) : List (Turkey × Option Customer) :=
  (List.range (max turkeys.length customers.length)).filterMap
    (fun t => (turkeys[t]?).map
      (fun turkey => (turkey, customers[q.indexOf t]?)))

/-! ### Generic helper lemmas about lists, indices and sums -/

theorem getD_mem {α : Type} {l : List α} {i : ℕ} (h : i < l.length) (d : α) :
    l.getD i d ∈ l := by
  rw [List.getD_eq_getElem _ _ h]
  exact List.getElem_mem h

theorem getD_map {α β : Type} (f : α → β) {l : List α} {i : ℕ}
    (h : i < l.length) (d : β) (d₂ : α) :
    (l.map f).getD i d = f (l.getD i d₂) := by
  rw [List.getD_eq_getElem _ _ (by simpa), List.getD_eq_getElem _ _ h,
    List.getElem_map]

theorem getD_map_range {α : Type} (f : ℕ → α) {n i : ℕ} (h : i < n) (d : α) :
    ((List.range n).map f).getD i d = f i := by
  rw [getD_map f (by simpa) d 0, List.getD_eq_getElem _ _ (by simpa),
    List.getElem_range]

theorem nodup_getD_inj {α : Type} {l : List α} (h : l.Nodup) {i j : ℕ}
    (hi : i < l.length) (hj : j < l.length) {d : α}
    (he : l.getD i d = l.getD j d) : i = j := by
  rw [List.getD_eq_getElem _ _ hi, List.getD_eq_getElem _ _ hj] at he
  exact h.getElem_inj_iff.mp he

theorem getD_indexOf_self {α : Type} [DecidableEq α] {l : List α} {x : α}
    (hx : x ∈ l) (d : α) : l.getD (l.indexOf x) d = x := by
  rw [List.getD_eq_getElem _ _ (List.indexOf_lt_length.mpr hx)]
  exact List.getElem_indexOf _

theorem indexOf_getD {α : Type} [DecidableEq α] {l : List α} (h : l.Nodup)
    {c : ℕ} (hc : c < l.length) (d : α) : l.indexOf (l.getD c d) = c := by
  rw [List.getD_eq_getElem _ _ hc]
  exact List.indexOf_getElem h c hc

theorem list_eq_map_range_getD {α : Type} (l : List α) (d : α) :
    l = (List.range l.length).map (fun i => l.getD i d) := by
  induction l with
  | nil => rfl
  | cons a l ih =>
    rw [List.length_cons, List.range_succ_eq_map, List.map_cons, List.map_map]
    exact congrArg (a :: ·) (ih.trans (List.map_congr_left fun i _ => rfl))

theorem sum_map_range_eq (f : ℕ → ℚ) (n : ℕ) :
    ((List.range n).map f).sum = ∑ i ∈ Finset.range n, f i := by
  induction n with
  | zero => rfl
  | succ n ih =>
    rw [List.range_succ, List.map_append, List.sum_append,
      Finset.sum_range_succ, ih]
    simp

theorem sum_map_filter_eq_sum_ite {α : Type} (l : List α) (p : α → Bool)
    (f : α → ℚ) :
    ((l.filter p).map f).sum = (l.map (fun a => if p a then f a else 0)).sum := by
  induction l with
  | nil => rfl
  | cons a l ih =>
    by_cases hp : p a
    · simp [List.filter_cons, hp, ih]
    · simp [List.filter_cons, hp, ih]

theorem map_snd_zip_eq_take {α β : Type} :
    ∀ (l₁ : List α) (l₂ : List β),
      (l₁.zip l₂).map Prod.snd = l₂.take l₁.length
  | [], l₂ => by simp
  | a :: l₁, [] => by simp
  | a :: l₁, b :: l₂ => by
    simp [List.zip_cons_cons, map_snd_zip_eq_take l₁ l₂]

theorem zip_eq_map_range {α β : Type} (l₁ : List α) (l₂ : List β)
    (h : l₁.length = l₂.length) (d₁ : α) (d₂ : β) :
    l₁.zip l₂ = (List.range l₁.length).map
      (fun i => (l₁.getD i d₁, l₂.getD i d₂)) := by
  induction l₁ generalizing l₂ with
  | nil => simp
  | cons a l₁ ih =>
    match l₂ with
    | [] => exact absurd h (by simp)
    | b :: l₂ =>
      rw [List.zip_cons_cons, List.length_cons, List.range_succ_eq_map,
        List.map_cons, List.map_map]
      exact congrArg ((a, b) :: ·) ((ih l₂ (by simpa using h)).trans
        (List.map_congr_left fun i _ => rfl))

/-! ### Properties of the Python `max` / `min` folds -/

theorem maxByFirst_mem {α : Type} (f : α → ℚ) :
    ∀ (l : List α) (a : α), maxByFirst f a l ∈ a :: l := by
  intro l
  induction l with
  | nil => intro a; simp [maxByFirst]
  | cons b l ih =>
    intro a
    show maxByFirst f (if f b > f a then b else a) l ∈ a :: b :: l
    by_cases hb : f b > f a
    · rw [if_pos hb]
      rcases List.mem_cons.mp (ih b) with h | h
      · rw [h]; exact List.mem_cons_of_mem a (List.mem_cons_self b l)
      · exact List.mem_cons_of_mem a (List.mem_cons_of_mem b h)
    · rw [if_neg hb]
      rcases List.mem_cons.mp (ih a) with h | h
      · rw [h]; exact List.mem_cons_self a (b :: l)
      · exact List.mem_cons_of_mem a (List.mem_cons_of_mem b h)

theorem maxByFirst_le {α : Type} (f : α → ℚ) :
    ∀ (l : List α) (a : α) (x : α), x ∈ a :: l → f x ≤ f (maxByFirst f a l) := by
  intro l
  induction l with
  | nil =>
    intro a x hx
    rw [List.mem_singleton.mp hx]
    exact le_refl (f a)
  | cons b l ih =>
    intro a x hx
    show f x ≤ f (maxByFirst f (if f b > f a then b else a) l)
    by_cases hb : f b > f a
    · rw [if_pos hb]
      rcases List.mem_cons.mp hx with rfl | hx'
      · exact le_of_lt (lt_of_lt_of_le hb (ih b b (List.mem_cons_self b l)))
      · exact ih b x hx'
    · rw [if_neg hb]
      rcases List.mem_cons.mp hx with rfl | hx'
      · exact ih x x (List.mem_cons_self x l)
      · rcases List.mem_cons.mp hx' with rfl | hx''
        · exact le_trans (le_of_not_lt hb) (ih a a (List.mem_cons_self a l))
        · exact ih a x (List.mem_cons_of_mem a hx'')

theorem minByFirst_mem {α : Type} (f : α → ℚ) :
    ∀ (l : List α) (a : α), minByFirst f a l ∈ a :: l := by
  intro l
  induction l with
  | nil => intro a; simp [minByFirst]
  | cons b l ih =>
    intro a
    show minByFirst f (if f b < f a then b else a) l ∈ a :: b :: l
    by_cases hb : f b < f a
    · rw [if_pos hb]
      rcases List.mem_cons.mp (ih b) with h | h
      · rw [h]; exact List.mem_cons_of_mem a (List.mem_cons_self b l)
      · exact List.mem_cons_of_mem a (List.mem_cons_of_mem b h)
    · rw [if_neg hb]
      rcases List.mem_cons.mp (ih a) with h | h
      · rw [h]; exact List.mem_cons_self a (b :: l)
      · exact List.mem_cons_of_mem a (List.mem_cons_of_mem b h)

theorem minByFirst_le {α : Type} (f : α → ℚ) :
    ∀ (l : List α) (a : α) (x : α), x ∈ a :: l → f (minByFirst f a l) ≤ f x := by
  intro l
  induction l with
  | nil =>
    intro a x hx
    rw [List.mem_singleton.mp hx]
    exact le_refl (f a)
  | cons b l ih =>
    intro a x hx
    show f (minByFirst f (if f b < f a then b else a) l) ≤ f x
    by_cases hb : f b < f a
    · rw [if_pos hb]
      rcases List.mem_cons.mp hx with rfl | hx'
      · exact le_of_lt (lt_of_le_of_lt (ih b b (List.mem_cons_self b l)) hb)
      · exact ih b x hx'
    · rw [if_neg hb]
      rcases List.mem_cons.mp hx with rfl | hx'
      · exact ih x x (List.mem_cons_self x l)
      · rcases List.mem_cons.mp hx' with rfl | hx''
        · exact le_trans (ih a a (List.mem_cons_self a l)) (le_of_not_lt hb)
        · exact ih a x (List.mem_cons_of_mem a hx'')

/-! ### Characterization of `kperms` -/

theorem picks_mem_iff {α : Type} [DecidableEq α] :
    ∀ {l : List α}, l.Nodup → ∀ {x : α} {rest : List α},
      ((x, rest) ∈ picks l ↔ x ∈ l ∧ rest = l.erase x) := by
  intro l
  induction l with
  | nil => intro _ x rest; simp [picks]
  | cons a as ih =>
    intro hl x rest
    rcases List.nodup_cons.mp hl with ⟨ha, has⟩
    constructor
    · intro hmem
      rcases List.mem_cons.mp hmem with heq | hmem'
      · obtain ⟨rfl, rfl⟩ : x = a ∧ rest = as := by
          simpa [Prod.ext_iff] using heq
        exact ⟨List.mem_cons_self _ _, (List.erase_cons_head _ _).symm⟩
      · obtain ⟨⟨y, r⟩, hyr, heq⟩ := List.mem_map.mp hmem'
        obtain ⟨hyx, hrest⟩ : y = x ∧ a :: r = rest := by
          simpa [Prod.ext_iff] using heq
        obtain ⟨hy, hr⟩ := (ih has).mp hyr
        have hya : y ≠ a := fun h => ha (h ▸ hy)
        constructor
        · rw [← hyx]
          exact List.mem_cons_of_mem a hy
        · rw [← hrest, hr, ← hyx,
            List.erase_cons_tail (by simpa using Ne.symm hya)]
    · rintro ⟨hx, rfl⟩
      rcases List.mem_cons.mp hx with rfl | hx'
      · rw [List.erase_cons_head]
        exact List.mem_cons_self (x, as) _
      · have hxa : x ≠ a := fun h => ha (h ▸ hx')
        rw [List.erase_cons_tail (by simpa using Ne.symm hxa)]
        exact List.mem_cons_of_mem _
          (List.mem_map.mpr ⟨(x, as.erase x), (ih has).mpr ⟨hx', rfl⟩, rfl⟩)

theorem mem_kperms_iff {α : Type} [DecidableEq α] :
    ∀ (k : ℕ) (l : List α), l.Nodup → ∀ (l' : List α),
      (l' ∈ kperms l k ↔ l'.Nodup ∧ l'.length = k ∧ l' ⊆ l) := by
  intro k
  induction k with
  | zero =>
    intro l _ l'
    show l' ∈ [[]] ↔ _
    simp only [List.mem_singleton]
    constructor
    · rintro rfl
      exact ⟨List.nodup_nil, rfl, List.nil_subset l⟩
    · rintro ⟨_, hlen, _⟩
      exact List.length_eq_zero.mp hlen
  | succ k ih =>
    intro l hl l'
    show l' ∈ (picks l).flatMap _ ↔ _
    rw [List.mem_flatMap]
    constructor
    · rintro ⟨⟨x, rest⟩, hp, hq⟩
      rw [List.mem_map] at hq
      obtain ⟨q, hq, rfl⟩ := hq
      obtain ⟨hx, rfl⟩ := (picks_mem_iff hl).mp hp
      obtain ⟨hqn, hqlen, hqsub⟩ := (ih (l.erase x) (hl.erase x) q).mp hq
      refine ⟨List.nodup_cons.mpr ⟨fun hxq => hl.not_mem_erase (hqsub hxq), hqn⟩,
        by simp [hqlen], ?_⟩
      exact List.cons_subset.mpr ⟨hx, hqsub.trans (List.erase_subset x l)⟩
    · rintro ⟨hn, hlen, hsub⟩
      match l' with
      | x :: q =>
        have hx : x ∈ l := hsub (List.mem_cons_self x q)
        rcases List.nodup_cons.mp hn with ⟨hxq, hqn⟩
        refine ⟨(x, l.erase x), (picks_mem_iff hl).mpr ⟨hx, rfl⟩, ?_⟩
        rw [List.mem_map]
        refine ⟨q, (ih (l.erase x) (hl.erase x) q).mpr ⟨hqn, by simpa using hlen, ?_⟩, rfl⟩
        intro y hy
        have hyl : y ∈ l := hsub (List.mem_cons_of_mem x hy)
        have hyx : y ≠ x := fun h => hxq (h ▸ hy)
        exact (hl.mem_erase_iff).mpr ⟨hyx, hyl⟩

theorem kperms_ne_nil {α : Type} :
    ∀ (k : ℕ) (l : List α), k ≤ l.length → kperms l k ≠ [] := by
  intro k
  induction k with
  | zero => intro l _; simp [kperms]
  | succ k ih =>
    intro l hl
    match l with
    | [] => simp at hl
    | a :: as =>
      obtain ⟨q, hq⟩ := List.exists_mem_of_ne_nil _ (ih as (by simpa using hl))
      apply List.ne_nil_of_mem (a := a :: q)
      show a :: q ∈ (picks (a :: as)).flatMap _
      rw [List.mem_flatMap]
      exact ⟨(a, as), List.mem_cons_self _ _, List.mem_map.mpr ⟨q, hq, rfl⟩⟩

theorem perm_range_of_mem_kperms {n : ℕ} {q : List ℕ}
    (hq : q ∈ kperms (List.range n) n) : q.Perm (List.range n) := by
  obtain ⟨hnd, hlen, hsub⟩ :=
    (mem_kperms_iff n (List.range n) (List.nodup_range n) q).mp hq
  exact (hnd.subperm hsub).perm_of_length_le (by simp [hlen])

/-! ### The negotiation rule (claims C5, C6) -/

/-- C5: Under the midpoint negotiation policy, for every requester and every
item, the agreed price equals the item's price (`weight * unit_price`) when
the requester's target weight is strictly greater than the item's weight, and
otherwise equals the arithmetic mean of the requester's ideal price
(`target_weight * unit_price`) and the item's price. -/
theorem agreed_price_midpoint (c : Customer) (t : Turkey) :
    c.agreed_price t =
      if c.target_weight > t.weight then t.weight * PRICE_PER_KILO
      else (c.target_weight * PRICE_PER_KILO + t.weight * PRICE_PER_KILO) / 2 := rfl

/-- C6 counterexample: the program's only negotiation rule,
`Customer.agreed_price`, is not the min-of-willingness policy: for a customer
with target weight 3 and a turkey of weight 10 the code returns
`(3 + 10) / 2 = 13/2`, while `min(max_price, price) = 3`.  No configuration
that selects an alternative policy exists in the source. -/
theorem agreed_price_ne_min_willingness :
    Customer.agreed_price ⟨0, "A", 3, none⟩ ⟨0, 10⟩ ≠
      min_willingness_price ⟨0, "A", 3, none⟩ ⟨0, 10⟩ := by
  with_unfolding_all decide

/-- C6 (amended): the program supports exactly one negotiation policy, the
midpoint policy; `Customer.agreed_price` coincides with the spec's midpoint
formula on every input (and differs from the min-of-willingness formula, see
the counterexample). -/
theorem agreed_price_is_midpoint_policy (c : Customer) (t : Turkey) :
    c.agreed_price t = midpoint_price c t := rfl

/-! ### Constructor validation (claim C9) -/

/-- C9 counterexample: constructing a `Turkey` with negative weight or a
`Customer` with negative target is not rejected — the object is built as-is
and reaches the profit evaluator, which returns a negative value. -/
theorem negative_weight_accepted :
    (Turkey.mk 0 (-1)).weight = -1 ∧
    (Customer.mk 1 "A" (-2) none).target_weight = -2 ∧
    calc_profit [Turkey.mk 0 (-1)] [Customer.mk 1 "A" (-2) none] [] < 0 := by
  refine ⟨rfl, rfl, ?_⟩
  with_unfolding_all decide

/-- C9 (amended): the constructors perform no validation: `Turkey.__init__`
and `Customer.__init__` store any weight and target (negative included)
unchanged, and such entities flow into `calc_profit`, which credits the
(possibly negative) leftover value. -/
theorem constructors_store_unvalidated (i j : ℕ) (nm : String) (w tw : ℚ)
    (nts : Option String) :
    (Turkey.mk i w).weight = w ∧ (Customer.mk j nm tw nts).target_weight = tw ∧
    calc_profit [Turkey.mk i w] [Customer.mk j nm tw nts] []
      = w * PRICE_PER_KILO * LEFTOVER_VALUE := by
  refine ⟨rfl, rfl, ?_⟩
  simp [calc_profit, sell_profit, leftover_turkeys, Turkey.leftover_value,
    Turkey.price, calc_price]

/-! ### The cost matrix (claims C3, C10) -/

/-- C3: each cell `(c, t)` of the cost matrix holds the negated agreed price
when both the customer and the turkey are real, the negated leftover value of
the turkey when the customer is a phantom (index out of range), and `0` when
the turkey is a phantom and the customer is real. -/
theorem matEntry_spec (turkeys : List Turkey) (customers : List Customer)
    (c t : ℕ) :
    (∀ cu, customers[c]? = some cu → ∀ tk, turkeys[t]? = some tk →
        matEntry turkeys customers c t = -(cu.agreed_price tk)) ∧
    (customers[c]? = none → ∀ tk, turkeys[t]? = some tk →
        matEntry turkeys customers c t = -tk.leftover_value) ∧
    (turkeys[t]? = none → ∀ cu, customers[c]? = some cu →
        matEntry turkeys customers c t = 0) := by
  refine ⟨fun cu hc tk ht => ?_, fun hc tk ht => ?_, fun ht cu hc => ?_⟩ <;>
    simp [matEntry, cellCost, hc, ht]

/-- Witness for C3: the three cell kinds evaluated on concrete inputs. -/
theorem matEntry_spec_witness :
    matEntry [⟨0, 10⟩] [⟨1, "A", 4, none⟩] 0 0
        = -(Customer.agreed_price ⟨1, "A", 4, none⟩ ⟨0, 10⟩) ∧
    matEntry [⟨0, 10⟩] [] 0 0 = -(Turkey.leftover_value ⟨0, 10⟩) ∧
    matEntry [] [⟨1, "A", 4, none⟩] 0 0 = 0 :=
  ⟨(matEntry_spec [⟨0, 10⟩] [⟨1, "A", 4, none⟩] 0 0).1 _ rfl _ rfl,
   (matEntry_spec [⟨0, 10⟩] [] 0 0).2.1 rfl _ rfl,
   (matEntry_spec [] [⟨1, "A", 4, none⟩] 0 0).2.2 rfl _ rfl⟩

/-- C10: within the `size × size` bounds of the cost matrix, the turkey and
the customer are never both phantom, so the cost of every cell is defined
(the `leftover_value` branch always has a real turkey) and matrix
construction is total. -/
theorem cellCost_total (turkeys : List Turkey) (customers : List Customer)
    {c t : ℕ} (hc : c < max turkeys.length customers.length)
    (ht : t < max turkeys.length customers.length) :
    (cellCost turkeys customers c t).isSome = true := by
  unfold cellCost
  rcases hcu : customers[c]? with _ | cu
  · have hcl : customers.length ≤ c := List.getElem?_eq_none_iff.mp hcu
    rcases htk : turkeys[t]? with _ | tk
    · have htl : turkeys.length ≤ t := List.getElem?_eq_none_iff.mp htk
      omega
    · rfl
  · rcases htk : turkeys[t]? with _ | tk
    · rfl
    · rfl

/-- Witness for C10: a concrete in-bounds phantom-customer cell is defined. -/
theorem cellCost_total_witness :
    (cellCost [⟨0, 1⟩] [] 0 0).isSome = true :=
  cellCost_total [⟨0, 1⟩] [] (by decide) (by decide)

/-! ### Non-negativity of the profit (claim C7) -/

/-- C7: whenever all turkey weights are non-negative and the negotiation rule
returns a non-negative agreed price on each matched pair, the `sell_profit`
sum is non-negative (so the source's `assert sell_profit >= 0` never fails)
and `calc_profit` returns a non-negative value. -/
theorem calc_profit_nonneg (turkeys : List Turkey) (customers : List Customer)
    (pairing : List (Turkey × Customer))
    (hw : ∀ t ∈ turkeys, 0 ≤ t.weight)
    (hp : ∀ p ∈ pairing, 0 ≤ p.2.agreed_price p.1) :
    0 ≤ sell_profit pairing ∧ 0 ≤ calc_profit turkeys customers pairing := by
  have hs : 0 ≤ sell_profit pairing := by
    apply List.sum_nonneg
    intro x hx
    obtain ⟨p, hp', rfl⟩ := List.mem_map.mp hx
    exact hp p hp'
  refine ⟨hs, ?_⟩
  have hl : 0 ≤ ((leftover_turkeys turkeys pairing).map Turkey.leftover_value).sum := by
    apply List.sum_nonneg
    intro x hx
    obtain ⟨t, ht, rfl⟩ := List.mem_map.mp hx
    have htt : t ∈ turkeys := List.mem_dedup.mp (List.mem_filter.mp ht).1
    have h0 : 0 ≤ t.weight := hw t htt
    show (0:ℚ) ≤ t.weight * PRICE_PER_KILO * LEFTOVER_VALUE
    exact mul_nonneg (mul_nonneg h0 (by norm_num [PRICE_PER_KILO]))
      (by norm_num [LEFTOVER_VALUE])
  exact add_nonneg hs hl

/-- Witness for C7: non-negativity on a concrete instance. -/
theorem calc_profit_nonneg_witness :
    0 ≤ sell_profit [(⟨0, 2⟩, ⟨0, "A", 1, none⟩)] ∧
    0 ≤ calc_profit [⟨0, 2⟩, ⟨1, 3⟩] [⟨0, "A", 1, none⟩]
        [(⟨0, 2⟩, ⟨0, "A", 1, none⟩)] :=
  calc_profit_nonneg [⟨0, 2⟩, ⟨1, 3⟩] [⟨0, "A", 1, none⟩]
    [(⟨0, 2⟩, ⟨0, "A", 1, none⟩)]
    (by with_unfolding_all decide) (by with_unfolding_all decide)

/-! ### The profit formula (claim C4) -/

/-- Supporting fact for the modelling of `calc_profit`: the source's first
assertion, `assert set(leftovers) <= set(turkeys)`, always holds. -/
theorem leftover_turkeys_subset (turkeys : List Turkey)
    (pairing : List (Turkey × Customer)) :
    ∀ t ∈ leftover_turkeys turkeys pairing, t ∈ turkeys := by
  intro t ht
  exact List.mem_dedup.mp (List.mem_filter.mp ht).1

/-- C4 counterexample: `calc_profit` does not return a value on every
pairing — on the pairing matching a turkey of weight -10 to a customer with
target 0 the agreed-price sum is -10, the `assert sell_profit >= 0` fails,
and the program raises `AssertionError` instead of returning the sum
formula. -/
theorem calc_profit_assert_counterexample :
    calc_profit? [⟨0, -10⟩] [⟨0, "A", 0, none⟩]
        [(⟨0, -10⟩, ⟨0, "A", 0, none⟩)] = none ∧
    sell_profit [(⟨0, -10⟩, ⟨0, "A", 0, none⟩)] < 0 := by
  refine ⟨?_, ?_⟩ <;> with_unfolding_all decide

/-- C4 (amended): for distinct items, whenever the agreed-price sum of the
pairing is non-negative — so that the source's assertion passes —
`calc_profit` returns the sum of `agreed_price(requester, item)` over the
pairs of the pairing plus the sum of
`weight * unit_price * leftover_fraction` over the items not matched by the
pairing; on a negative agreed-price sum it raises instead (see the
counterexample). -/
theorem calc_profit_formula (turkeys : List Turkey) (customers : List Customer)
    (pairing : List (Turkey × Customer)) (hnd : turkeys.Nodup)
    (hok : 0 ≤ sell_profit pairing) :
    calc_profit? turkeys customers pairing =
      some ((pairing.map (fun p => p.2.agreed_price p.1)).sum
        + ((turkeys.filter (fun t => decide (t ∉ pairing.map Prod.fst))).map
            (fun t => t.weight * PRICE_PER_KILO * LEFTOVER_VALUE)).sum) := by
  unfold calc_profit?
  rw [if_pos hok]
  refine congrArg some ?_
  unfold calc_profit sell_profit leftover_turkeys
  rw [hnd.dedup]
  rfl

/-- Witness for C4: the formula evaluated on a concrete instance whose
agreed-price sum is non-negative. -/
theorem calc_profit_formula_witness :
    calc_profit? [⟨0, 1⟩, ⟨1, 2⟩] [] [(⟨0, 1⟩, ⟨0, "A", 3, none⟩)] =
      some (([((⟨0, 1⟩ : Turkey), (⟨0, "A", 3, none⟩ : Customer))].map
        (fun p => p.2.agreed_price p.1)).sum
      + (([⟨0, 1⟩, ⟨1, 2⟩].filter
            (fun t => decide (t ∉ [((⟨0, 1⟩ : Turkey),
              (⟨0, "A", 3, none⟩ : Customer))].map Prod.fst))).map
          (fun t => t.weight * PRICE_PER_KILO * LEFTOVER_VALUE)).sum) :=
  calc_profit_formula [⟨0, 1⟩, ⟨1, 2⟩] [] [(⟨0, 1⟩, ⟨0, "A", 3, none⟩)]
    (by with_unfolding_all decide) (by with_unfolding_all decide)

/-! ### First-argmax characterization of Python `max` (claim C2) -/

theorem maxByFirst_spec {α : Type} (f : α → ℚ) (d : α) :
    ∀ (l : List α) (a : α), ∃ i, i < l.length + 1 ∧
      (a :: l).getD i d = maxByFirst f a l ∧
      (∀ j, j < i → f ((a :: l).getD j d) < f (maxByFirst f a l)) := by
  intro l
  induction l with
  | nil =>
    intro a
    exact ⟨0, Nat.zero_lt_one, rfl, fun j hj => absurd hj (Nat.not_lt_zero j)⟩
  | cons b l ih =>
    intro a
    show ∃ i, i < l.length + 1 + 1 ∧
      (a :: b :: l).getD i d = maxByFirst f (if f b > f a then b else a) l ∧
      (∀ j, j < i → f ((a :: b :: l).getD j d) <
        f (maxByFirst f (if f b > f a then b else a) l))
    by_cases hb : f b > f a
    · rw [if_pos hb]
      obtain ⟨i, hi, hgd, hfirst⟩ := ih b
      refine ⟨i + 1, by omega, hgd, ?_⟩
      intro j hj
      match j with
      | 0 =>
        exact lt_of_lt_of_le hb (maxByFirst_le f l b b (List.mem_cons_self b l))
      | j + 1 =>
        exact hfirst j (by omega)
    · rw [if_neg hb]
      obtain ⟨i, hi, hgd, hfirst⟩ := ih a
      match i, hi, hgd, hfirst with
      | 0, _, hgd, _ =>
        exact ⟨0, by omega, hgd, fun j hj => absurd hj (Nat.not_lt_zero j)⟩
      | k + 1, hi, hgd, hfirst =>
        refine ⟨k + 2, by omega, hgd, ?_⟩
        intro j hj
        match j with
        | 0 => exact hfirst 0 (Nat.succ_pos k)
        | 1 => exact lt_of_le_of_lt (le_of_not_lt hb) (hfirst 0 (Nat.succ_pos k))
        | j + 2 => exact hfirst (j + 1) (by omega)

/-- C2 counterexample: `brute_pairing` does not return the arg-max
candidate on every input — with one turkey of weight -10 and one customer
with target 0, the single enumerated candidate has agreed-price sum -10, so
evaluating its profit fails the `assert sell_profit >= 0` inside
`calc_profit` and the call raises `AssertionError` instead of returning. -/
theorem brute_pairing_assert_counterexample :
    brute_pairing? [⟨0, -10⟩] [⟨0, "A", 0, none⟩] = none ∧
    brute_candidates [⟨0, -10⟩] [⟨0, "A", 0, none⟩]
      = [[(⟨0, -10⟩, ⟨0, "A", 0, none⟩)]] ∧
    sell_profit [(⟨0, -10⟩, ⟨0, "A", 0, none⟩)] < 0 := by
  refine ⟨?_, ?_, ?_⟩ <;> with_unfolding_all decide

/-- C2 (amended): whenever every enumerated candidate passes the
agreed-price-sum assertion (so no profit evaluation raises),
`brute_pairing` does return — `brute_pairing?` is `some` of it — and it
returns the candidate maximizing `calc_profit` over the enumerated
candidates (every ordered selection of `min(|items|, |requesters|)` distinct
items zipped with the requesters in input order), the first maximizing
candidate in enumeration order on ties: there is an index `i` pointing at
the returned pairing such that every candidate's profit is at most the
returned profit and every candidate before index `i` has strictly smaller
profit. -/
theorem brute_pairing_spec (turkeys : List Turkey) (customers : List Customer)
    (hnd : turkeys.Nodup)
    (hok : ∀ pr ∈ brute_candidates turkeys customers, 0 ≤ sell_profit pr) :
    brute_pairing? turkeys customers
      = some (brute_pairing turkeys customers) ∧
    ∃ i, i < (brute_candidates turkeys customers).length ∧
      (brute_candidates turkeys customers).getD i [] =
        brute_pairing turkeys customers ∧
      (∀ pr ∈ brute_candidates turkeys customers,
        calc_profit turkeys customers pr ≤
          calc_profit turkeys customers (brute_pairing turkeys customers)) ∧
      (∀ j, j < i →
        calc_profit turkeys customers
            ((brute_candidates turkeys customers).getD j []) <
          calc_profit turkeys customers (brute_pairing turkeys customers)) := by
  refine ⟨?_, ?_⟩
  · unfold brute_pairing?
    have hall : (brute_candidates turkeys customers).all
        (fun pr => (calc_profit? turkeys customers pr).isSome) = true := by
      rw [List.all_eq_true]
      intro pr hpr
      unfold calc_profit?
      rw [if_pos (hok pr hpr)]
      rfl
    rw [if_pos hall]
  have hne : brute_candidates turkeys customers ≠ [] := by
    unfold brute_candidates
    intro h
    exact kperms_ne_nil (min customers.length turkeys.length) turkeys
      (Nat.min_le_right _ _) (List.map_eq_nil_iff.mp h)
  obtain ⟨c0, cs, hcs⟩ := List.exists_cons_of_ne_nil hne
  have hbrute : brute_pairing turkeys customers =
      maxByFirst (fun pr => calc_profit turkeys customers pr) c0 cs := by
    unfold brute_pairing
    rw [hcs]
    rfl
  obtain ⟨i, hi, hgd, hfirst⟩ :=
    maxByFirst_spec (fun pr => calc_profit turkeys customers pr) [] cs c0
  refine ⟨i, by rw [hcs]; simpa using hi, ?_, ?_, ?_⟩
  · rw [hcs, hbrute]
    exact hgd
  · intro pr hpr
    rw [hbrute]
    exact maxByFirst_le (fun pr => calc_profit turkeys customers pr) cs c0 pr
      (hcs ▸ hpr)
  · intro j hj
    rw [hcs, hbrute]
    exact hfirst j hj

/-- Witness for C2: the characterization instantiated on a concrete pair of
lists on which every candidate passes the assertion. -/
theorem brute_pairing_spec_witness :
    brute_pairing? [⟨0, 5⟩, ⟨1, 10⟩] [⟨0, "A", 4, none⟩]
      = some (brute_pairing [⟨0, 5⟩, ⟨1, 10⟩] [⟨0, "A", 4, none⟩]) ∧
    ∃ i, i < (brute_candidates [⟨0, 5⟩, ⟨1, 10⟩] [⟨0, "A", 4, none⟩]).length ∧
      (brute_candidates [⟨0, 5⟩, ⟨1, 10⟩] [⟨0, "A", 4, none⟩]).getD i [] =
        brute_pairing [⟨0, 5⟩, ⟨1, 10⟩] [⟨0, "A", 4, none⟩] ∧
      (∀ pr ∈ brute_candidates [⟨0, 5⟩, ⟨1, 10⟩] [⟨0, "A", 4, none⟩],
        calc_profit [⟨0, 5⟩, ⟨1, 10⟩] [⟨0, "A", 4, none⟩] pr ≤
          calc_profit [⟨0, 5⟩, ⟨1, 10⟩] [⟨0, "A", 4, none⟩]
            (brute_pairing [⟨0, 5⟩, ⟨1, 10⟩] [⟨0, "A", 4, none⟩])) ∧
      (∀ j, j < i →
        calc_profit [⟨0, 5⟩, ⟨1, 10⟩] [⟨0, "A", 4, none⟩]
            ((brute_candidates [⟨0, 5⟩, ⟨1, 10⟩] [⟨0, "A", 4, none⟩]).getD j []) <
          calc_profit [⟨0, 5⟩, ⟨1, 10⟩] [⟨0, "A", 4, none⟩]
            (brute_pairing [⟨0, 5⟩, ⟨1, 10⟩] [⟨0, "A", 4, none⟩])) :=
  brute_pairing_spec [⟨0, 5⟩, ⟨1, 10⟩] [⟨0, "A", 4, none⟩]
    (by with_unfolding_all decide) (by with_unfolding_all decide)

/-! ### Structure of the solver outputs (claim C8) -/

theorem brute_candidates_ne_nil (turkeys : List Turkey)
    (customers : List Customer) : brute_candidates turkeys customers ≠ [] := by
  unfold brute_candidates
  intro h
  exact kperms_ne_nil (min customers.length turkeys.length) turkeys
    (Nat.min_le_right _ _) (List.map_eq_nil_iff.mp h)

theorem brute_pairing_mem_candidates (turkeys : List Turkey)
    (customers : List Customer) :
    brute_pairing turkeys customers ∈ brute_candidates turkeys customers := by
  obtain ⟨c0, cs, hcs⟩ :=
    List.exists_cons_of_ne_nil (brute_candidates_ne_nil turkeys customers)
  unfold brute_pairing
  rw [hcs]
  exact maxByFirst_mem _ cs c0

theorem lap_rowsol_mem (n : ℕ) (mat : ℕ → ℕ → ℚ) :
    (lap n mat).1 ∈ kperms (List.range n) n := by
  obtain ⟨p0, ps, hps⟩ := List.exists_cons_of_ne_nil
    (kperms_ne_nil n (List.range n) (by simp))
  show minByFirstD (lapCost n mat) [] (kperms (List.range n) n) ∈ _
  rw [hps]
  exact minByFirst_mem _ ps p0

theorem lap_rowsol_perm (n : ℕ) (mat : ℕ → ℕ → ℚ) :
    ((lap n mat).1).Perm (List.range n) :=
  perm_range_of_mem_kperms (lap_rowsol_mem n mat)

theorem lap_rowsol_length (n : ℕ) (mat : ℕ → ℕ → ℚ) :
    ((lap n mat).1).length = n := by
  rw [(lap_rowsol_perm n mat).length_eq, List.length_range]

theorem lap_snd (n : ℕ) (mat : ℕ → ℕ → ℚ) :
    (lap n mat).2 = (List.range n).map (fun t => ((lap n mat).1).indexOf t) := rfl

theorem hungarian_fst_eq (turkeys : List Turkey) (customers : List Customer) :
    (hungarian_pairing turkeys customers).1 =
      (List.range (max turkeys.length customers.length)).filterMap
        (fun t => (turkeys[t]?).map (fun tk => (tk,
          customers[((lap (max turkeys.length customers.length)
            (matEntry turkeys customers)).1).indexOf t]?))) := by
  show (List.range (max turkeys.length customers.length)).filterMap _ = _
  apply List.filterMap_congr
  intro t ht
  have htn : t < max turkeys.length customers.length := List.mem_range.mp ht
  rw [lap_snd, getD_map_range _ htn]

theorem hungarian_snd_eq (turkeys : List Turkey) (customers : List Customer) :
    (hungarian_pairing turkeys customers).2 =
      (List.range (max turkeys.length customers.length)).filterMap
        (fun t => (customers[((lap (max turkeys.length customers.length)
            (matEntry turkeys customers)).1).indexOf t]?).map
          (fun cu => (cu, turkeys[t]?))) := by
  show (List.range (max turkeys.length customers.length)).filterMap _ = _
  apply List.filterMap_congr
  intro t ht
  have htn : t < max turkeys.length customers.length := List.mem_range.mp ht
  rw [lap_snd, getD_map_range _ htn]

theorem getElem?_some_inj {α : Type} {l : List α} (h : l.Nodup) {i j : ℕ}
    {a : α} (h1 : l[i]? = some a) (h2 : l[j]? = some a) : i = j := by
  obtain ⟨hi, e1⟩ := List.getElem?_eq_some_iff.mp h1
  obtain ⟨hj, e2⟩ := List.getElem?_eq_some_iff.mp h2
  exact h.getElem_inj_iff.mp (e1.trans e2.symm)

theorem indexOf_eq_inj {α : Type} [DecidableEq α] {l : List α} {x y : α}
    (hx : l.indexOf x < l.length) (hy : l.indexOf y < l.length)
    (h : l.indexOf x = l.indexOf y) : x = y := by
  have ex : l[l.indexOf x]? = some x := by
    rw [List.getElem?_eq_getElem hx]
    exact congrArg some (List.getElem_indexOf hx)
  have ey : l[l.indexOf y]? = some y := by
    rw [List.getElem?_eq_getElem hy]
    exact congrArg some (List.getElem_indexOf hy)
  rw [h] at ex
  exact Option.some.inj (ex.symm.trans ey)

theorem extract_keys_nodup (turkeys : List Turkey) (customers : List Customer)
    (q : List ℕ) (hT : turkeys.Nodup) :
    (((List.range (max turkeys.length customers.length)).filterMap
      (fun t => (turkeys[t]?).map (fun tk => (tk, customers[q.indexOf t]?)))).map
        Prod.fst).Nodup := by
  rw [List.map_filterMap]
  have hcong : ∀ t ∈ List.range (max turkeys.length customers.length),
      ((turkeys[t]?).map (fun tk => (tk, customers[q.indexOf t]?))).map Prod.fst
        = turkeys[t]? := by
    intro t _
    cases turkeys[t]? <;> rfl
  rw [List.filterMap_congr hcong]
  exact List.Nodup.filterMap
    (fun a a' b hb hb' =>
      getElem?_some_inj hT (Option.mem_def.mp hb) (Option.mem_def.mp hb'))
    (List.nodup_range _)

theorem extract_vals_nodup (turkeys : List Turkey) (customers : List Customer)
    (q : List ℕ) (hC : customers.Nodup)
    (hqlen : q.length = max turkeys.length customers.length) :
    (((List.range (max turkeys.length customers.length)).filterMap
      (fun t => (turkeys[t]?).map (fun tk => (tk, customers[q.indexOf t]?)))).filterMap
        Prod.snd).Nodup := by
  rw [List.filterMap_filterMap]
  have hcong : ∀ t ∈ List.range (max turkeys.length customers.length),
      ((turkeys[t]?).map (fun tk => (tk, customers[q.indexOf t]?))).bind Prod.snd
        = (turkeys[t]?).bind (fun _ => customers[q.indexOf t]?) := by
    intro t _
    cases turkeys[t]? <;> rfl
  rw [List.filterMap_congr hcong]
  refine List.Nodup.filterMap ?_ (List.nodup_range _)
  intro a a' b hb hb'
  rcases hta : turkeys[a]? with _ | tk
  · rw [hta] at hb; exact absurd hb (by simp)
  rcases hta' : turkeys[a']? with _ | tk'
  · rw [hta'] at hb'; exact absurd hb' (by simp)
  rw [hta] at hb; rw [hta'] at hb'
  have hb2 : customers[q.indexOf a]? = some b := Option.mem_def.mp hb
  have hb2' : customers[q.indexOf a']? = some b := Option.mem_def.mp hb'
  have hlt : q.indexOf a < q.length := by
    have := (List.getElem?_eq_some_iff.mp hb2).1
    rw [hqlen]
    exact lt_of_lt_of_le this (Nat.le_max_right _ _)
  have hlt' : q.indexOf a' < q.length := by
    have := (List.getElem?_eq_some_iff.mp hb2').1
    rw [hqlen]
    exact lt_of_lt_of_le this (Nat.le_max_right _ _)
  exact indexOf_eq_inj hlt hlt' (getElem?_some_inj hC hb2 hb2')

theorem extract_snd_keys_nodup (turkeys : List Turkey)
    (customers : List Customer) (q : List ℕ) (hC : customers.Nodup)
    (hqlen : q.length = max turkeys.length customers.length) :
    (((List.range (max turkeys.length customers.length)).filterMap
      (fun t => (customers[q.indexOf t]?).map (fun cu => (cu, turkeys[t]?)))).map
        Prod.fst).Nodup := by
  rw [List.map_filterMap]
  have hcong : ∀ t ∈ List.range (max turkeys.length customers.length),
      ((customers[q.indexOf t]?).map (fun cu => (cu, turkeys[t]?))).map Prod.fst
        = customers[q.indexOf t]? := by
    intro t _
    cases customers[q.indexOf t]? <;> rfl
  rw [List.filterMap_congr hcong]
  refine List.Nodup.filterMap ?_ (List.nodup_range _)
  intro a a' b hb hb'
  have hb2 : customers[q.indexOf a]? = some b := Option.mem_def.mp hb
  have hb2' : customers[q.indexOf a']? = some b := Option.mem_def.mp hb'
  have hlt : q.indexOf a < q.length := by
    have := (List.getElem?_eq_some_iff.mp hb2).1
    rw [hqlen]
    exact lt_of_lt_of_le this (Nat.le_max_right _ _)
  have hlt' : q.indexOf a' < q.length := by
    have := (List.getElem?_eq_some_iff.mp hb2').1
    rw [hqlen]
    exact lt_of_lt_of_le this (Nat.le_max_right _ _)
  exact indexOf_eq_inj hlt hlt' (getElem?_some_inj hC hb2 hb2')

theorem extract_snd_vals_nodup (turkeys : List Turkey)
    (customers : List Customer) (q : List ℕ) (hT : turkeys.Nodup) :
    (((List.range (max turkeys.length customers.length)).filterMap
      (fun t => (customers[q.indexOf t]?).map (fun cu => (cu, turkeys[t]?)))).filterMap
        Prod.snd).Nodup := by
  rw [List.filterMap_filterMap]
  have hcong : ∀ t ∈ List.range (max turkeys.length customers.length),
      ((customers[q.indexOf t]?).map (fun cu => (cu, turkeys[t]?))).bind Prod.snd
        = (customers[q.indexOf t]?).bind (fun _ => turkeys[t]?) := by
    intro t _
    cases customers[q.indexOf t]? <;> rfl
  rw [List.filterMap_congr hcong]
  refine List.Nodup.filterMap ?_ (List.nodup_range _)
  intro a a' b hb hb'
  rcases hca : customers[q.indexOf a]? with _ | cu
  · rw [hca] at hb; exact absurd hb (by simp)
  rcases hca' : customers[q.indexOf a']? with _ | cu'
  · rw [hca'] at hb'; exact absurd hb' (by simp)
  rw [hca] at hb; rw [hca'] at hb'
  exact getElem?_some_inj hT (Option.mem_def.mp hb) (Option.mem_def.mp hb')

theorem extract_maps_agree (turkeys : List Turkey) (customers : List Customer)
    (q : List ℕ) (tk : Turkey) (cu : Customer) :
    ((tk, some cu) ∈ (List.range (max turkeys.length customers.length)).filterMap
      (fun t => (turkeys[t]?).map (fun tk' => (tk', customers[q.indexOf t]?)))
     ↔ (cu, some tk) ∈ (List.range (max turkeys.length customers.length)).filterMap
      (fun t => (customers[q.indexOf t]?).map (fun cu' => (cu', turkeys[t]?)))) := by
  rw [List.mem_filterMap, List.mem_filterMap]
  constructor
  · rintro ⟨t, ht, hf⟩
    rw [Option.map_eq_some'] at hf
    obtain ⟨tk', htk', heq⟩ := hf
    have h1 : tk' = tk := congrArg Prod.fst heq
    have h2 : customers[q.indexOf t]? = some cu := congrArg Prod.snd heq
    refine ⟨t, ht, ?_⟩
    rw [h2, Option.map_some', htk', h1]
  · rintro ⟨t, ht, hf⟩
    rw [Option.map_eq_some'] at hf
    obtain ⟨cu', hcu', heq⟩ := hf
    have h1 : cu' = cu := congrArg Prod.fst heq
    have h2 : turkeys[t]? = some tk := congrArg Prod.snd heq
    refine ⟨t, ht, ?_⟩
    rw [h2, Option.map_some', hcu', h1]

/-- C8: for distinct items and distinct requesters both solvers produce
one-to-one pairings: in `brute_pairing`'s list no turkey key repeats and no
customer value repeats; in `hungarian_pairing`'s two maps no key repeats and
no non-`None` value repeats; and the two directional maps of
`hungarian_pairing` agree on every matched (turkey, customer) pair. -/
theorem pairings_one_to_one (turkeys : List Turkey) (customers : List Customer)
    (hT : turkeys.Nodup) (hC : customers.Nodup) :
    ((brute_pairing turkeys customers).map Prod.fst).Nodup ∧
    ((brute_pairing turkeys customers).map Prod.snd).Nodup ∧
    ((hungarian_pairing turkeys customers).1.map Prod.fst).Nodup ∧
    ((hungarian_pairing turkeys customers).1.filterMap Prod.snd).Nodup ∧
    ((hungarian_pairing turkeys customers).2.map Prod.fst).Nodup ∧
    ((hungarian_pairing turkeys customers).2.filterMap Prod.snd).Nodup ∧
    (∀ tk cu, (tk, some cu) ∈ (hungarian_pairing turkeys customers).1 ↔
        (cu, some tk) ∈ (hungarian_pairing turkeys customers).2) := by
  obtain ⟨ts, hts, hzip⟩ :=
    List.mem_map.mp (brute_pairing_mem_candidates turkeys customers)
  obtain ⟨hts_nd, hts_len, _⟩ :=
    (mem_kperms_iff (min customers.length turkeys.length) turkeys hT ts).mp hts
  have hqlen : ((lap (max turkeys.length customers.length)
      (matEntry turkeys customers)).1).length
        = max turkeys.length customers.length :=
    lap_rowsol_length _ _
  refine ⟨?_, ?_, ?_, ?_, ?_, ?_, ?_⟩
  · rw [← hzip, List.map_fst_zip ts customers
      (by rw [hts_len]; exact Nat.min_le_left _ _)]
    exact hts_nd
  · rw [← hzip, map_snd_zip_eq_take]
    exact (List.take_sublist _ _).nodup hC
  · rw [hungarian_fst_eq]
    exact extract_keys_nodup turkeys customers _ hT
  · rw [hungarian_fst_eq]
    exact extract_vals_nodup turkeys customers _ hC hqlen
  · rw [hungarian_snd_eq]
    exact extract_snd_keys_nodup turkeys customers _ hC hqlen
  · rw [hungarian_snd_eq]
    exact extract_snd_vals_nodup turkeys customers _ hT
  · intro tk cu
    rw [hungarian_fst_eq, hungarian_snd_eq]
    exact extract_maps_agree turkeys customers _ tk cu

/-- Witness for C8: the invariants instantiated on a concrete pair of
distinct lists. -/
theorem pairings_one_to_one_witness :
    ((brute_pairing [⟨0, 5⟩, ⟨1, 10⟩] [⟨0, "A", 4, none⟩, ⟨1, "B", 12, none⟩]).map
      Prod.fst).Nodup ∧
    ((brute_pairing [⟨0, 5⟩, ⟨1, 10⟩] [⟨0, "A", 4, none⟩, ⟨1, "B", 12, none⟩]).map
      Prod.snd).Nodup ∧
    ((hungarian_pairing [⟨0, 5⟩, ⟨1, 10⟩]
      [⟨0, "A", 4, none⟩, ⟨1, "B", 12, none⟩]).1.map Prod.fst).Nodup ∧
    ((hungarian_pairing [⟨0, 5⟩, ⟨1, 10⟩]
      [⟨0, "A", 4, none⟩, ⟨1, "B", 12, none⟩]).1.filterMap Prod.snd).Nodup ∧
    ((hungarian_pairing [⟨0, 5⟩, ⟨1, 10⟩]
      [⟨0, "A", 4, none⟩, ⟨1, "B", 12, none⟩]).2.map Prod.fst).Nodup ∧
    ((hungarian_pairing [⟨0, 5⟩, ⟨1, 10⟩]
      [⟨0, "A", 4, none⟩, ⟨1, "B", 12, none⟩]).2.filterMap Prod.snd).Nodup ∧
    (∀ tk cu, (tk, some cu) ∈ (hungarian_pairing [⟨0, 5⟩, ⟨1, 10⟩]
        [⟨0, "A", 4, none⟩, ⟨1, "B", 12, none⟩]).1 ↔
      (cu, some tk) ∈ (hungarian_pairing [⟨0, 5⟩, ⟨1, 10⟩]
        [⟨0, "A", 4, none⟩, ⟨1, "B", 12, none⟩]).2) :=
  pairings_one_to_one [⟨0, 5⟩, ⟨1, 10⟩] [⟨0, "A", 4, none⟩, ⟨1, "B", 12, none⟩]
    (by with_unfolding_all decide) (by with_unfolding_all decide)

/-! ### Equivalence of the two solvers when there are at least as many
turkeys as customers (claim C1) -/

theorem calc_profit_perm (turkeys : List Turkey) (customers : List Customer)
    {pr pr' : List (Turkey × Customer)} (h : pr.Perm pr') :
    calc_profit turkeys customers pr = calc_profit turkeys customers pr' := by
  unfold calc_profit sell_profit leftover_turkeys
  congr 1
  · exact (h.map _).sum_eq
  · congr 1
    congr 1
    apply List.filter_congr
    intro t _
    have hiff : t ∈ pr.map Prod.fst ↔ t ∈ pr'.map Prod.fst :=
      (h.map Prod.fst).mem_iff
    exact decide_eq_decide.mpr (not_congr hiff)

theorem filterMap_some_eq_map {α β : Type} (f : α → β) (l : List α) :
    l.filterMap (fun a => some (f a)) = l.map f := by
  induction l with
  | nil => rfl
  | cons a l ih => simp [List.filterMap_cons, ih]

theorem filterMap_none_eq_nil {α β : Type} (l : List α) :
    l.filterMap (fun _ => (none : Option β)) = [] := by
  induction l with
  | nil => rfl
  | cons a l ih => simp [List.filterMap_cons, ih]

theorem candOf_profit (turkeys : List Turkey) (customers : List Customer)
    (q : List ℕ) (hT : turkeys.Nodup)
    (hlen : customers.length ≤ turkeys.length)
    (hq : q.Perm (List.range (max turkeys.length customers.length))) :
    calc_profit turkeys customers (candOf turkeys customers q)
      = -(lapCost (max turkeys.length customers.length)
          (matEntry turkeys customers) q) := by
  have hmax : max turkeys.length customers.length = turkeys.length :=
    Nat.max_eq_left hlen
  have hqlen : q.length = turkeys.length := by
    rw [hq.length_eq, List.length_range, hmax]
  have hqnd : q.Nodup := hq.nodup_iff.mpr (List.nodup_range _)
  have hqlt : ∀ {c : ℕ}, c < turkeys.length → q.getD c 0 < turkeys.length := by
    intro c hc
    have h1 : q.getD c 0 ∈ q := getD_mem (by rw [hqlen]; exact hc) 0
    have h2 := List.mem_range.mp (hq.mem_iff.mp h1)
    rw [hmax] at h2
    exact h2
  have hcellA : ∀ {c : ℕ}, c < customers.length →
      matEntry turkeys customers c (q.getD c 0)
        = -((customers.getD c dCustomer).agreed_price
            (turkeys.getD (q.getD c 0) dTurkey)) := by
    intro c hc
    have hcu : customers[c]? = some (customers.getD c dCustomer) := by
      rw [List.getD_eq_getElem _ _ hc]
      exact List.getElem?_eq_getElem hc
    have hb : q.getD c 0 < turkeys.length := hqlt (lt_of_lt_of_le hc hlen)
    have htk : turkeys[q.getD c 0]? = some (turkeys.getD (q.getD c 0) dTurkey) := by
      rw [List.getD_eq_getElem _ _ hb]
      exact List.getElem?_eq_getElem hb
    unfold matEntry cellCost
    rw [hcu, htk]
    rfl
  have hcellB : ∀ {c : ℕ}, customers.length ≤ c → c < turkeys.length →
      matEntry turkeys customers c (q.getD c 0)
        = -((turkeys.getD (q.getD c 0) dTurkey).leftover_value) := by
    intro c hc1 hc2
    have hcu : customers[c]? = none := List.getElem?_eq_none hc1
    have hb : q.getD c 0 < turkeys.length := hqlt hc2
    have htk : turkeys[q.getD c 0]? = some (turkeys.getD (q.getD c 0) dTurkey) := by
      rw [List.getD_eq_getElem _ _ hb]
      exact List.getElem?_eq_getElem hb
    unfold matEntry cellCost
    rw [hcu, htk]
    rfl
  have hrhs : lapCost (max turkeys.length customers.length)
      (matEntry turkeys customers) q
      = -((∑ c ∈ Finset.range customers.length,
            (customers.getD c dCustomer).agreed_price
              (turkeys.getD (q.getD c 0) dTurkey))
        + ∑ c ∈ Finset.Ico customers.length turkeys.length,
            (turkeys.getD (q.getD c 0) dTurkey).leftover_value) := by
    unfold lapCost
    rw [sum_map_range_eq, hmax]
    have hsplit : ∑ c ∈ Finset.range turkeys.length,
        matEntry turkeys customers c (q.getD c 0)
        = (∑ c ∈ Finset.range customers.length,
            matEntry turkeys customers c (q.getD c 0))
          + ∑ c ∈ Finset.Ico customers.length turkeys.length,
            matEntry turkeys customers c (q.getD c 0) := by
      rw [Finset.range_eq_Ico,
        Finset.sum_Ico_consecutive _ (Nat.zero_le _) hlen]
    rw [hsplit]
    rw [Finset.sum_congr rfl
      (fun c hc => hcellA (Finset.mem_range.mp hc))]
    rw [Finset.sum_congr rfl
      (fun c hc => hcellB (Finset.mem_Ico.mp hc).1 (Finset.mem_Ico.mp hc).2)]
    rw [Finset.sum_neg_distrib, Finset.sum_neg_distrib]
    ring
  have hsell : sell_profit (candOf turkeys customers q)
      = ∑ c ∈ Finset.range customers.length,
          (customers.getD c dCustomer).agreed_price
            (turkeys.getD (q.getD c 0) dTurkey) := by
    unfold sell_profit candOf
    rw [List.map_map, sum_map_range_eq]
    rfl
  have hmem_keys : ∀ {i : ℕ}, i < turkeys.length →
      ((turkeys.getD i dTurkey) ∈ (candOf turkeys customers q).map Prod.fst
        ↔ q.indexOf i < customers.length) := by
    intro i hi
    have hkeys : (candOf turkeys customers q).map Prod.fst
        = (List.range customers.length).map
            (fun c => turkeys.getD (q.getD c 0) dTurkey) := by
      unfold candOf
      rw [List.map_map]
      rfl
    rw [hkeys]
    constructor
    · intro hmem
      obtain ⟨c, hc, he⟩ := List.mem_map.mp hmem
      have hcp : c < customers.length := List.mem_range.mp hc
      have hcq : c < q.length := by
        rw [hqlen]; exact lt_of_lt_of_le hcp hlen
      have hb : q.getD c 0 < turkeys.length := hqlt (lt_of_lt_of_le hcp hlen)
      have heq : q.getD c 0 = i := nodup_getD_inj hT hb hi he
      rw [← heq, indexOf_getD hqnd hcq 0]
      exact hcp
    · intro hlt
      have him : i ∈ q := hq.mem_iff.mpr
        (List.mem_range.mpr (by rw [hmax]; exact hi))
      refine List.mem_map.mpr ⟨q.indexOf i, List.mem_range.mpr hlt, ?_⟩
      rw [getD_indexOf_self him 0]
  have hleft : ((leftover_turkeys turkeys
        (candOf turkeys customers q)).map Turkey.leftover_value).sum
      = ∑ c ∈ Finset.Ico customers.length turkeys.length,
          (turkeys.getD (q.getD c 0) dTurkey).leftover_value := by
    unfold leftover_turkeys
    rw [hT.dedup]
    calc ((turkeys.filter (fun t =>
            decide (t ∉ (candOf turkeys customers q).map Prod.fst))).map
          Turkey.leftover_value).sum
        = ((((List.range turkeys.length).map
              (fun i => turkeys.getD i dTurkey)).filter (fun t =>
            decide (t ∉ (candOf turkeys customers q).map Prod.fst))).map
          Turkey.leftover_value).sum := by
          exact congrArg (fun l => ((List.filter (fun t =>
              decide (t ∉ (candOf turkeys customers q).map Prod.fst)) l).map
                Turkey.leftover_value).sum)
            (list_eq_map_range_getD turkeys dTurkey)
      _ = ((List.range turkeys.length).map (fun i =>
            if (turkeys.getD i dTurkey) ∉
                (candOf turkeys customers q).map Prod.fst
              then (turkeys.getD i dTurkey).leftover_value else 0)).sum := by
          rw [List.filter_map, List.map_map, sum_map_filter_eq_sum_ite]
          simp only [Function.comp_apply, decide_eq_true_eq]
      _ = ∑ i ∈ Finset.range turkeys.length,
            if (turkeys.getD i dTurkey) ∉
                (candOf turkeys customers q).map Prod.fst
              then (turkeys.getD i dTurkey).leftover_value else 0 := by
          rw [sum_map_range_eq]
      _ = ∑ i ∈ Finset.range turkeys.length,
            if ¬(q.indexOf i < customers.length)
              then (turkeys.getD i dTurkey).leftover_value else 0 := by
          refine Finset.sum_congr rfl (fun i hi => ?_)
          exact if_congr (not_congr (hmem_keys (Finset.mem_range.mp hi)))
            rfl rfl
      _ = ∑ i ∈ (Finset.range turkeys.length).filter
            (fun i => ¬(q.indexOf i < customers.length)),
              (turkeys.getD i dTurkey).leftover_value := by
          rw [Finset.sum_filter]
      _ = ∑ c ∈ Finset.Ico customers.length turkeys.length,
            (turkeys.getD (q.getD c 0) dTurkey).leftover_value := by
          refine Finset.sum_nbij' (fun i => q.indexOf i) (fun c => q.getD c 0)
            ?_ ?_ ?_ ?_ ?_
          · intro i hi
            obtain ⟨hir, hip⟩ := Finset.mem_filter.mp hi
            have hiT : i < turkeys.length := Finset.mem_range.mp hir
            have him : i ∈ q := hq.mem_iff.mpr
              (List.mem_range.mpr (by rw [hmax]; exact hiT))
            have hlt : q.indexOf i < q.length := List.indexOf_lt_length.mpr him
            rw [hqlen] at hlt
            exact Finset.mem_Ico.mpr ⟨Nat.le_of_not_lt hip, hlt⟩
          · intro c hc
            obtain ⟨hc1, hc2⟩ := Finset.mem_Ico.mp hc
            have hcq : c < q.length := by rw [hqlen]; exact hc2
            refine Finset.mem_filter.mpr
              ⟨Finset.mem_range.mpr (hqlt hc2), ?_⟩
            rw [indexOf_getD hqnd hcq 0]
            omega
          · intro i hi
            obtain ⟨hir, _⟩ := Finset.mem_filter.mp hi
            have hiT : i < turkeys.length := Finset.mem_range.mp hir
            have him : i ∈ q := hq.mem_iff.mpr
              (List.mem_range.mpr (by rw [hmax]; exact hiT))
            exact getD_indexOf_self him 0
          · intro c hc
            obtain ⟨_, hc2⟩ := Finset.mem_Ico.mp hc
            have hcq : c < q.length := by rw [hqlen]; exact hc2
            exact indexOf_getD hqnd hcq 0
          · intro i hi
            obtain ⟨hir, _⟩ := Finset.mem_filter.mp hi
            have hiT : i < turkeys.length := Finset.mem_range.mp hir
            have him : i ∈ q := hq.mem_iff.mpr
              (List.mem_range.mpr (by rw [hmax]; exact hiT))
            rw [getD_indexOf_self him 0]
  unfold calc_profit
  rw [hsell, hleft, hrhs, neg_neg]

theorem candOf_mem_candidates (turkeys : List Turkey)
    (customers : List Customer) (q : List ℕ) (hT : turkeys.Nodup)
    (hlen : customers.length ≤ turkeys.length)
    (hq : q.Perm (List.range (max turkeys.length customers.length))) :
    candOf turkeys customers q ∈ brute_candidates turkeys customers := by
  have hmax : max turkeys.length customers.length = turkeys.length :=
    Nat.max_eq_left hlen
  have hqlen : q.length = turkeys.length := by
    rw [hq.length_eq, List.length_range, hmax]
  have hqnd : q.Nodup := hq.nodup_iff.mpr (List.nodup_range _)
  have hqlt : ∀ {c : ℕ}, c < turkeys.length → q.getD c 0 < turkeys.length := by
    intro c hc
    have h1 : q.getD c 0 ∈ q := getD_mem (by rw [hqlen]; exact hc) 0
    have h2 := List.mem_range.mp (hq.mem_iff.mp h1)
    rw [hmax] at h2
    exact h2
  set ts := (List.range customers.length).map
    (fun c => turkeys.getD (q.getD c 0) dTurkey) with hts
  have hts_len : ts.length = customers.length := by simp [hts]
  have hts_nodup : ts.Nodup := by
    rw [hts]
    apply List.Nodup.map_on ?_ (List.nodup_range _)
    intro c hc c' hc' he
    have hcp : c < customers.length := List.mem_range.mp hc
    have hcp' : c' < customers.length := List.mem_range.mp hc'
    have h1 : q.getD c 0 = q.getD c' 0 :=
      nodup_getD_inj hT (hqlt (lt_of_lt_of_le hcp hlen))
        (hqlt (lt_of_lt_of_le hcp' hlen)) he
    exact nodup_getD_inj hqnd
      (by rw [hqlen]; exact lt_of_lt_of_le hcp hlen)
      (by rw [hqlen]; exact lt_of_lt_of_le hcp' hlen) h1
  have hts_sub : ts ⊆ turkeys := by
    intro x hx
    rw [hts] at hx
    obtain ⟨c, hc, rfl⟩ := List.mem_map.mp hx
    exact getD_mem (hqlt (lt_of_lt_of_le (List.mem_range.mp hc) hlen)) dTurkey
  have hts_mem : ts ∈ kperms turkeys (min customers.length turkeys.length) := by
    rw [Nat.min_eq_left hlen]
    exact (mem_kperms_iff customers.length turkeys hT ts).mpr
      ⟨hts_nodup, hts_len, hts_sub⟩
  unfold brute_candidates
  refine List.mem_map.mpr ⟨ts, hts_mem, ?_⟩
  rw [zip_eq_map_range ts customers (by rw [hts_len]) dTurkey dCustomer,
    hts_len]
  unfold candOf
  apply List.map_congr_left
  intro c hc
  have hcp : c < customers.length := List.mem_range.mp hc
  have h1 : ts.getD c dTurkey = turkeys.getD (q.getD c 0) dTurkey := by
    rw [hts]
    exact getD_map_range _ hcp dTurkey
  rw [h1]

theorem exists_rowsol_of_candidate (turkeys : List Turkey)
    (customers : List Customer) (hT : turkeys.Nodup)
    (hlen : customers.length ≤ turkeys.length)
    {cand : List (Turkey × Customer)}
    (hc : cand ∈ brute_candidates turkeys customers) :
    ∃ q ∈ kperms (List.range (max turkeys.length customers.length))
        (max turkeys.length customers.length),
      candOf turkeys customers q = cand := by
  have hmax : max turkeys.length customers.length = turkeys.length :=
    Nat.max_eq_left hlen
  obtain ⟨ts, hts, hzip⟩ := List.mem_map.mp hc
  obtain ⟨hts_nd, hts_len', hts_sub⟩ :=
    (mem_kperms_iff (min customers.length turkeys.length) turkeys hT ts).mp hts
  have hts_len : ts.length = customers.length := by
    rw [hts_len', Nat.min_eq_left hlen]
  set is := ts.map (fun x => turkeys.indexOf x) with his
  have his_len : is.length = customers.length := by simp [his, hts_len]
  have his_lt : ∀ i ∈ is, i < turkeys.length := by
    intro i hi
    rw [his] at hi
    obtain ⟨x, hx, rfl⟩ := List.mem_map.mp hi
    exact List.indexOf_lt_length.mpr (hts_sub hx)
  have his_nd : is.Nodup := by
    rw [his]
    apply List.Nodup.map_on ?_ hts_nd
    intro x hx y hy he
    exact indexOf_eq_inj (List.indexOf_lt_length.mpr (hts_sub hx))
      (List.indexOf_lt_length.mpr (hts_sub hy)) he
  set q := is ++ (List.range turkeys.length).filter
    (fun i => decide (i ∉ is)) with hqdef
  have hq_nd : q.Nodup := by
    rw [hqdef]
    apply List.Nodup.append his_nd ((List.nodup_range _).filter _)
    intro a ha ha'
    have h2 := (List.mem_filter.mp ha').2
    rw [decide_eq_true_eq] at h2
    exact h2 ha
  have hq_perm : q.Perm (List.range (max turkeys.length customers.length)) := by
    rw [hmax]
    refine (List.Nodup.subperm hq_nd ?_).antisymm
      (List.Nodup.subperm (List.nodup_range _) ?_)
    · intro a ha
      rw [hqdef] at ha
      rcases List.mem_append.mp ha with h | h
      · exact List.mem_range.mpr (his_lt a h)
      · exact List.mem_of_mem_filter h
    · intro a ha
      rw [hqdef]
      by_cases hmem : a ∈ is
      · exact List.mem_append.mpr (Or.inl hmem)
      · exact List.mem_append.mpr (Or.inr (List.mem_filter.mpr
          ⟨ha, by rw [decide_eq_true_eq]; exact hmem⟩))
  refine ⟨q, (mem_kperms_iff _ _ (List.nodup_range _) q).mpr
    ⟨hq_nd, by rw [hq_perm.length_eq, List.length_range], hq_perm.subset⟩, ?_⟩
  rw [← hzip, zip_eq_map_range ts customers (by rw [hts_len]) dTurkey dCustomer,
    hts_len]
  unfold candOf
  apply List.map_congr_left
  intro c hc'
  have hcp : c < customers.length := List.mem_range.mp hc'
  have h1 : q.getD c 0 = is.getD c 0 := by
    rw [hqdef]
    exact List.getD_append _ _ _ _ (by rw [his_len]; exact hcp)
  have h2 : is.getD c 0 = turkeys.indexOf (ts.getD c dTurkey) := by
    rw [his]
    exact getD_map _ (by rw [hts_len]; exact hcp) 0 dTurkey
  have h3 : turkeys.getD (turkeys.indexOf (ts.getD c dTurkey)) dTurkey
      = ts.getD c dTurkey :=
    getD_indexOf_self (hts_sub (getD_mem (by rw [hts_len]; exact hcp) dTurkey))
      dTurkey
  rw [h1, h2, h3]

theorem matched_perm_candOf (turkeys : List Turkey)
    (customers : List Customer) (q : List ℕ)
    (hlen : customers.length ≤ turkeys.length)
    (hq : q.Perm (List.range (max turkeys.length customers.length))) :
    (matchedPairs ((List.range (max turkeys.length customers.length)).filterMap
        (fun t => (turkeys[t]?).map
          (fun tk => (tk, customers[q.indexOf t]?))))).Perm
      (candOf turkeys customers q) := by
  have hmax : max turkeys.length customers.length = turkeys.length :=
    Nat.max_eq_left hlen
  have hqlen : q.length = turkeys.length := by
    rw [hq.length_eq, List.length_range, hmax]
  have hqnd : q.Nodup := hq.nodup_iff.mpr (List.nodup_range _)
  unfold matchedPairs
  rw [List.filterMap_filterMap]
  have hstep1 : ∀ t ∈ List.range (max turkeys.length customers.length),
      ((turkeys[t]?).map (fun tk => (tk, customers[q.indexOf t]?))).bind
          (fun p => p.2.map (fun c => (p.1, c)))
        = (customers[q.indexOf t]?).map
            (fun cu => (turkeys.getD t dTurkey, cu)) := by
    intro t ht
    have htl : t < turkeys.length := by
      rw [← hmax]; exact List.mem_range.mp ht
    have htk : turkeys[t]? = some (turkeys.getD t dTurkey) := by
      rw [List.getD_eq_getElem _ _ htl]
      exact List.getElem?_eq_getElem htl
    rw [htk]
    rfl
  rw [List.filterMap_congr hstep1]
  have hperm1 := List.Perm.filterMap
    (fun t => (customers[q.indexOf t]?).map
      (fun cu => (turkeys.getD t dTurkey, cu))) hq.symm
  refine hperm1.trans (List.Perm.of_eq ?_)
  have hqexp : q.filterMap (fun t => (customers[q.indexOf t]?).map
      (fun cu => (turkeys.getD t dTurkey, cu)))
      = (List.range turkeys.length).filterMap (fun c =>
          (customers[q.indexOf (q.getD c 0)]?).map
            (fun cu => (turkeys.getD (q.getD c 0) dTurkey, cu))) := by
    calc q.filterMap (fun t => (customers[q.indexOf t]?).map
          (fun cu => (turkeys.getD t dTurkey, cu)))
        = ((List.range q.length).map (fun c => q.getD c 0)).filterMap
            (fun t => (customers[q.indexOf t]?).map
              (fun cu => (turkeys.getD t dTurkey, cu))) := by
          exact congrArg (fun l => l.filterMap (fun t =>
            (customers[q.indexOf t]?).map
              (fun cu => (turkeys.getD t dTurkey, cu))))
            (list_eq_map_range_getD q 0)
      _ = _ := by
          rw [List.filterMap_map, hqlen]
          rfl
  rw [hqexp]
  have hstep2 : ∀ c ∈ List.range turkeys.length,
      (customers[q.indexOf (q.getD c 0)]?).map
          (fun cu => (turkeys.getD (q.getD c 0) dTurkey, cu))
        = (customers[c]?).map
            (fun cu => (turkeys.getD (q.getD c 0) dTurkey, cu)) := by
    intro c hc
    have hcq : c < q.length := by
      rw [hqlen]; exact List.mem_range.mp hc
    rw [indexOf_getD hqnd hcq 0]
  rw [List.filterMap_congr hstep2]
  have hrangesplit : List.range turkeys.length
      = List.range customers.length
        ++ (List.range (turkeys.length - customers.length)).map
            (customers.length + ·) := by
    rw [← List.range_add, Nat.add_sub_cancel' hlen]
  rw [hrangesplit, List.filterMap_append]
  have hsecond : ((List.range (turkeys.length - customers.length)).map
      (customers.length + ·)).filterMap (fun c =>
        (customers[c]?).map
          (fun cu => (turkeys.getD (q.getD c 0) dTurkey, cu))) = [] := by
    rw [List.filterMap_map]
    have : ∀ j ∈ List.range (turkeys.length - customers.length),
        ((fun c => (customers[c]?).map
          (fun cu => (turkeys.getD (q.getD c 0) dTurkey, cu)))
            ∘ (customers.length + ·)) j = none := by
      intro j _
      have hnone : customers[customers.length + j]? = none :=
        List.getElem?_eq_none (Nat.le_add_right _ _)
      show (customers[customers.length + j]?).map _ = none
      rw [hnone]
      rfl
    rw [List.filterMap_congr this]
    exact filterMap_none_eq_nil _
  rw [hsecond, List.append_nil]
  have hfirst : ∀ c ∈ List.range customers.length,
      (customers[c]?).map (fun cu => (turkeys.getD (q.getD c 0) dTurkey, cu))
        = some (turkeys.getD (q.getD c 0) dTurkey,
            customers.getD c dCustomer) := by
    intro c hc
    have hcp : c < customers.length := List.mem_range.mp hc
    have hcu : customers[c]? = some (customers.getD c dCustomer) := by
      rw [List.getD_eq_getElem _ _ hcp]
      exact List.getElem?_eq_getElem hcp
    rw [hcu]
    rfl
  rw [List.filterMap_congr hfirst]
  unfold candOf
  exact filterMap_some_eq_map _ _

/-- C1 (amended): when there are at least as many (distinct) turkeys as
customers, the pairing found by `hungarian_pairing` and the pairing found by
`brute_pairing` have equal total value under `calc_profit`.  (The original
claim, for all small inputs, fails when there are fewer turkeys than
customers — see the counterexample — because `brute_pairing` only ever
matches the first `min` customers.) -/
theorem hungarian_brute_equal_value (turkeys : List Turkey)
    (customers : List Customer) (hT : turkeys.Nodup)
    (hlen : customers.length ≤ turkeys.length) :
    calc_profit turkeys customers
        (matchedPairs (hungarian_pairing turkeys customers).1)
      = calc_profit turkeys customers (brute_pairing turkeys customers) := by
  have hq_mem := lap_rowsol_mem (max turkeys.length customers.length)
    (matEntry turkeys customers)
  have hq_perm := perm_range_of_mem_kperms hq_mem
  have hH : calc_profit turkeys customers
      (matchedPairs (hungarian_pairing turkeys customers).1)
      = -(lapCost (max turkeys.length customers.length)
          (matEntry turkeys customers)
          ((lap (max turkeys.length customers.length)
            (matEntry turkeys customers)).1)) := by
    rw [hungarian_fst_eq]
    rw [calc_profit_perm turkeys customers
      (matched_perm_candOf turkeys customers _ hlen hq_perm)]
    exact candOf_profit turkeys customers _ hT hlen hq_perm
  have hmin : ∀ q' ∈ kperms (List.range (max turkeys.length customers.length))
      (max turkeys.length customers.length),
      lapCost (max turkeys.length customers.length)
          (matEntry turkeys customers)
          ((lap (max turkeys.length customers.length)
            (matEntry turkeys customers)).1)
        ≤ lapCost (max turkeys.length customers.length)
            (matEntry turkeys customers) q' := by
    intro q' hq'
    obtain ⟨p0, ps, hps⟩ := List.exists_cons_of_ne_nil
      (kperms_ne_nil (max turkeys.length customers.length)
        (List.range (max turkeys.length customers.length)) (by simp))
    have hqe : (lap (max turkeys.length customers.length)
        (matEntry turkeys customers)).1
        = minByFirst (lapCost (max turkeys.length customers.length)
            (matEntry turkeys customers)) p0 ps := by
      show minByFirstD _ [] (kperms
        (List.range (max turkeys.length customers.length))
        (max turkeys.length customers.length)) = _
      rw [hps]
      rfl
    rw [hqe]
    exact minByFirst_le _ ps p0 q' (hps ▸ hq')
  obtain ⟨c0, cs, hcs⟩ := List.exists_cons_of_ne_nil
    (brute_candidates_ne_nil turkeys customers)
  have hmax_prop : ∀ pr ∈ brute_candidates turkeys customers,
      calc_profit turkeys customers pr
        ≤ calc_profit turkeys customers (brute_pairing turkeys customers) := by
    intro pr hpr
    unfold brute_pairing
    rw [hcs]
    exact maxByFirst_le _ cs c0 pr (hcs ▸ hpr)
  refine le_antisymm ?_ ?_
  · rw [hH]
    have hcand := candOf_mem_candidates turkeys customers _ hT hlen hq_perm
    have hle := hmax_prop _ hcand
    rw [candOf_profit turkeys customers _ hT hlen hq_perm] at hle
    exact hle
  · obtain ⟨qb, hqb_mem, hqb_eq⟩ :=
      exists_rowsol_of_candidate turkeys customers hT hlen
        (brute_pairing_mem_candidates turkeys customers)
    have hqb_perm := perm_range_of_mem_kperms hqb_mem
    have hbv : calc_profit turkeys customers (brute_pairing turkeys customers)
        = -(lapCost (max turkeys.length customers.length)
            (matEntry turkeys customers) qb) := by
      rw [← hqb_eq]
      exact candOf_profit turkeys customers qb hT hlen hqb_perm
    rw [hbv, hH]
    exact neg_le_neg (hmin qb hqb_mem)

/-- Witness for C1 (amended): equal values on a concrete instance with two
turkeys and two customers. -/
theorem hungarian_brute_equal_value_witness :
    calc_profit [⟨0, 5⟩, ⟨1, 10⟩] [⟨0, "A", 4, none⟩, ⟨1, "B", 12, none⟩]
        (matchedPairs (hungarian_pairing [⟨0, 5⟩, ⟨1, 10⟩]
          [⟨0, "A", 4, none⟩, ⟨1, "B", 12, none⟩]).1)
      = calc_profit [⟨0, 5⟩, ⟨1, 10⟩] [⟨0, "A", 4, none⟩, ⟨1, "B", 12, none⟩]
          (brute_pairing [⟨0, 5⟩, ⟨1, 10⟩]
            [⟨0, "A", 4, none⟩, ⟨1, "B", 12, none⟩]) :=
  hungarian_brute_equal_value [⟨0, 5⟩, ⟨1, 10⟩]
    [⟨0, "A", 4, none⟩, ⟨1, "B", 12, none⟩]
    (by with_unfolding_all decide) (by with_unfolding_all decide)

/-- C1 counterexample: with one turkey (weight 10, non-negative) and two
customers (targets 0 and 20, non-negative) — well within the "at most 6 by
6" bound — `brute_pairing` pairs the turkey with the first customer for a
total value of 5, while `hungarian_pairing` pairs it with the second
customer for a total value of 10, so the two solvers do not produce pairings
of equal `calc_profit` value. -/
theorem hungarian_brute_counterexample :
    calc_profit [⟨0, 10⟩] [⟨0, "A", 0, none⟩, ⟨1, "B", 20, none⟩]
        (brute_pairing [⟨0, 10⟩] [⟨0, "A", 0, none⟩, ⟨1, "B", 20, none⟩]) = 5
    ∧ calc_profit [⟨0, 10⟩] [⟨0, "A", 0, none⟩, ⟨1, "B", 20, none⟩]
        (matchedPairs (hungarian_pairing [⟨0, 10⟩]
          [⟨0, "A", 0, none⟩, ⟨1, "B", 20, none⟩]).1) = 10
    ∧ calc_profit [⟨0, 10⟩] [⟨0, "A", 0, none⟩, ⟨1, "B", 20, none⟩]
        (matchedPairs (hungarian_pairing [⟨0, 10⟩]
          [⟨0, "A", 0, none⟩, ⟨1, "B", 20, none⟩]).1)
      ≠ calc_profit [⟨0, 10⟩] [⟨0, "A", 0, none⟩, ⟨1, "B", 20, none⟩]
          (brute_pairing [⟨0, 10⟩] [⟨0, "A", 0, none⟩, ⟨1, "B", 20, none⟩]) := by
  refine ⟨?_, ?_, ?_⟩ <;> with_unfolding_all decide
